import Mathlib

/-!
Verification of the resume-job-matcher core routines against their
natural-language specification.

The development shallowly embeds the Python sources:

* `src/common/text/text_processor.py` — `TextProcessor.chunk_text`,
  `_split_into_sentences`, `_get_overlap_text`.  Token counting delegates to
  the external `tiktoken` library, so the estimator is a parameter
  `est : String → ℕ` (the spec sanctions any deterministic estimator, e.g.
  a word count).
* `src/ai/agents/talent_matcher_agent.py` — the distance-to-score mapping,
  the result-ranking loop, the numeric-index identifier resolution, and the
  error results of `get_best_candidates_for_job` /
  `get_best_jobs_for_candidate`.  The ChromaDB vector index is external and
  is modelled as an oracle.
* `src/database/mongo/mongo_util.py` — the duplicate-detection decisions of
  `insert_candidate_to_mongo_dict` and `insert_job_to_mongo_dict`.  The
  SHA-256 hash (`hashlib`, external) is an abstract parameter.
* `src/ai/tracking/token_tracker.py` — `TokenTracker.record_usage` and
  `_calculate_cost`.  Python floats are idealised as ℚ.

Python text is modelled as Lean `String` (`List Char` underneath); Python's
`str.strip` / whitespace tests use `Char.isWhitespace` (covering space, tab,
CR, LF — the characters relevant to the sources' inputs).
-/

/-! ## Characters, words, whitespace -/

/-- Whitespace test used throughout (models Python's notion of whitespace for
the characters that occur in this code base). -/
def isWS (c : Char) : Bool := c.isWhitespace

/-- Word scanner: `wordsAux cur cs` accumulates the current (reversed) word
`cur` while walking `cs`, yielding the list of maximal whitespace-free runs.
This is the formal meaning of "up to whitespace normalization". -/
def wordsAux : List Char → List Char → List (List Char)
  | cur, [] => if cur = [] then [] else [cur.reverse]
  | cur, c :: rest =>
    if isWS c then
      if cur = [] then wordsAux [] rest else cur.reverse :: wordsAux [] rest
    else wordsAux (c :: cur) rest

/-- The whitespace-separated words of a character list. -/
def wordsLC (cs : List Char) : List (List Char) := wordsAux [] cs

/-- The whitespace-separated words of a string. -/
def wordsS (s : String) : List (List Char) := wordsLC s.data

/-- Word count: the concrete, spec-sanctioned token estimator used for
witnesses and counterexamples ("an implementer may substitute
count_words*factor ... as long as it is deterministic and monotonic"). -/
def countWords (s : String) : ℕ := (wordsS s).length

/-- Python `str.strip()`: drop leading and trailing whitespace. -/
def stripLC (cs : List Char) : List Char :=
  ((cs.dropWhile isWS).reverse.dropWhile isWS).reverse

/-! ## Basic word lemmas -/

theorem wordsAux_ws_append (zs : List Char) (hz : ∀ c ∈ zs, isWS c = true) :
    ∀ ys, wordsAux [] (zs ++ ys) = wordsAux [] ys := by
  induction zs with
  | nil => intro ys; rfl
  | cons z zs ih =>
    intro ys
    have hzws : isWS z = true := hz z (by simp)
    have hz' : ∀ c ∈ zs, isWS c = true := fun c hc => hz c (by simp [hc])
    simp [wordsAux, hzws, ih hz' ys]

/-- Scanning only whitespace just flushes the pending word. -/
theorem wordsAux_ws_flush (zs : List Char) (hz : ∀ c ∈ zs, isWS c = true) :
    ∀ cur, wordsAux cur zs = if cur = [] then [] else [cur.reverse] := by
  induction zs with
  | nil => intro cur; rfl
  | cons z zs ih =>
    intro cur
    have hzws : isWS z = true := hz z (by simp)
    have hz' : ∀ c ∈ zs, isWS c = true := fun c hc => hz c (by simp [hc])
    by_cases hc : cur = [] <;> simp [wordsAux, hzws, hc, ih hz']

/-- A nonempty all-whitespace separator flushes and restarts the word scan. -/
theorem wordsAux_sep (cur : List Char) (sep ys : List Char)
    (hsep : ∀ c ∈ sep, isWS c = true) (hne : sep ≠ []) :
    wordsAux cur (sep ++ ys) =
      (if cur = [] then [] else [cur.reverse]) ++ wordsAux [] ys := by
  cases sep with
  | nil => exact absurd rfl hne
  | cons z zs =>
    have hzws : isWS z = true := hsep z (by simp)
    have hz' : ∀ c ∈ zs, isWS c = true := fun c hc => hsep c (by simp [hc])
    by_cases hc : cur = [] <;>
      simp [wordsAux, hzws, hc, wordsAux_ws_append zs hz' ys]

/-- Central lemma: words across a whitespace separator concatenate. -/
theorem words_append_sep (xs sep ys : List Char)
    (hsep : ∀ c ∈ sep, isWS c = true) (hne : sep ≠ []) :
    wordsLC (xs ++ sep ++ ys) = wordsLC xs ++ wordsLC ys := by
  suffices h : ∀ cur, wordsAux cur (xs ++ (sep ++ ys)) =
      wordsAux cur xs ++ wordsAux [] ys by
    simpa [wordsLC, List.append_assoc] using h []
  induction xs with
  | nil =>
    intro cur
    simpa [wordsAux] using wordsAux_sep cur sep ys hsep hne
  | cons x xs ih =>
    intro cur
    by_cases hx : isWS x = true
    · by_cases hc : cur = [] <;> simp [wordsAux, hx, hc, ih]
    · simp only [Bool.not_eq_true] at hx
      simp [wordsAux, hx, ih]

/-- Trailing whitespace does not change the words. -/
theorem words_append_ws (xs zs : List Char) (hz : ∀ c ∈ zs, isWS c = true) :
    wordsLC (xs ++ zs) = wordsLC xs := by
  suffices h : ∀ cur, wordsAux cur (xs ++ zs) = wordsAux cur xs by
    simpa [wordsLC] using h []
  induction xs with
  | nil =>
    intro cur
    simpa [wordsAux] using wordsAux_ws_flush zs hz cur
  | cons x xs ih =>
    intro cur
    by_cases hx : isWS x = true
    · by_cases hc : cur = [] <;> simp [wordsAux, hx, hc, ih]
    · simp only [Bool.not_eq_true] at hx
      simp [wordsAux, hx, ih]

/-- Leading whitespace does not change the words. -/
theorem words_ws_append (zs xs : List Char) (hz : ∀ c ∈ zs, isWS c = true) :
    wordsLC (zs ++ xs) = wordsLC xs :=
  wordsAux_ws_append zs hz xs

/-- Stripping preserves the words. -/
theorem words_stripLC (cs : List Char) : wordsLC (stripLC cs) = wordsLC cs := by
  have h1 : cs = cs.takeWhile isWS ++ cs.dropWhile isWS :=
    (List.takeWhile_append_dropWhile ..).symm
  have hws1 : ∀ c ∈ cs.takeWhile isWS, isWS c = true := fun _ hc =>
    List.mem_takeWhile_imp hc
  have h2 : cs.dropWhile isWS =
      stripLC cs ++ ((cs.dropWhile isWS).reverse.takeWhile isWS).reverse := by
    unfold stripLC
    rw [← List.reverse_append, List.takeWhile_append_dropWhile,
      List.reverse_reverse]
  have hws2 : ∀ c ∈ ((cs.dropWhile isWS).reverse.takeWhile isWS).reverse,
      isWS c = true := by
    intro c hc
    rw [List.mem_reverse] at hc
    exact List.mem_takeWhile_imp hc
  calc wordsLC (stripLC cs)
      = wordsLC (stripLC cs ++ ((cs.dropWhile isWS).reverse.takeWhile isWS).reverse) :=
        (words_append_ws _ _ hws2).symm
    _ = wordsLC (cs.dropWhile isWS) := by rw [← h2]
    _ = wordsLC (cs.takeWhile isWS ++ cs.dropWhile isWS) :=
        (words_ws_append _ _ hws1).symm
    _ = wordsLC cs := by rw [← h1]

/-! ## Paragraph splitting: Python `text.split("\n\n")` -/

/-- Python `str.split("\n\n")`: cut at each (leftmost, non-overlapping)
occurrence of the two-character separator; separators are dropped and empty
pieces are kept. -/
def splitOn2NL : List Char → List (List Char)
  | [] => [[]]
  | [c] => [[c]]
  | c :: d :: rest =>
    if c = '\n' ∧ d = '\n' then [] :: splitOn2NL rest
    else
      match splitOn2NL (d :: rest) with
      | [] => [[c]]
      | p :: ps => (c :: p) :: ps

theorem splitOn2NL_ne_nil : ∀ cs : List Char, splitOn2NL cs ≠ []
  | [] => by simp [splitOn2NL]
  | [c] => by simp [splitOn2NL]
  | c :: d :: rest => by
    by_cases h : c = '\n' ∧ d = '\n'
    · simp [splitOn2NL, h]
    · rcases hs : splitOn2NL (d :: rest) with _ | ⟨p, ps⟩ <;>
        simp [splitOn2NL, h, hs]

/-- Words are preserved by paragraph splitting (accumulator form). -/
theorem splitOn2NL_words_aux :
    ∀ (cs : List Char) (cur s : List Char) (ss : List (List Char)),
      splitOn2NL cs = s :: ss →
      wordsAux cur cs = wordsAux cur s ++ (ss.map wordsLC).flatten
  | [], cur, s, ss, h => by
    simp only [splitOn2NL, List.cons.injEq] at h
    obtain ⟨hs, hss⟩ := h
    subst hs; subst hss
    simp
  | [c], cur, s, ss, h => by
    simp only [splitOn2NL, List.cons.injEq] at h
    obtain ⟨hs, hss⟩ := h
    subst hs; subst hss
    simp
  | c :: d :: rest, cur, s, ss, h => by
    by_cases hnl : c = '\n' ∧ d = '\n'
    · obtain ⟨hc, hd⟩ := hnl
      subst hc; subst hd
      simp only [splitOn2NL, and_self, if_true, List.cons.injEq, reduceIte] at h
      obtain ⟨hs, hss⟩ := h
      subst hs; subst hss
      rcases hr : splitOn2NL rest with _ | ⟨p, ps⟩
      · exact absurd hr (splitOn2NL_ne_nil rest)
      · have hrec := splitOn2NL_words_aux rest [] p ps hr
        have hsep := wordsAux_sep cur ['\n', '\n'] rest (by decide) (by simp)
        simp only [List.cons_append, List.nil_append] at hsep
        rw [hsep, hrec]
        simp [wordsAux, wordsLC, List.append_assoc]
    · rcases hs : splitOn2NL (d :: rest) with _ | ⟨p, ps⟩
      · exact absurd hs (splitOn2NL_ne_nil (d :: rest))
      · simp only [splitOn2NL, hnl, if_false, hs, List.cons.injEq] at h
        obtain ⟨h1, h2⟩ := h
        subst h1; subst h2
        have hrec := fun cur => splitOn2NL_words_aux (d :: rest) cur p ps hs
        by_cases hwc : isWS c = true
        · by_cases hcur : cur = []
          · subst hcur
            have l1 : wordsAux ([] : List Char) (c :: d :: rest) =
                wordsAux [] (d :: rest) := by simp [wordsAux, hwc]
            have l2 : wordsAux ([] : List Char) (c :: p) = wordsAux [] p := by
              simp [wordsAux, hwc]
            rw [l1, l2, hrec []]
          · have l1 : wordsAux cur (c :: d :: rest) =
                cur.reverse :: wordsAux [] (d :: rest) := by
              simp [wordsAux, hwc, hcur]
            have l2 : wordsAux cur (c :: p) = cur.reverse :: wordsAux [] p := by
              simp [wordsAux, hwc, hcur]
            rw [l1, l2, hrec []]
            simp
        · simp only [Bool.not_eq_true] at hwc
          have l1 : wordsAux cur (c :: d :: rest) =
              wordsAux (c :: cur) (d :: rest) := by simp [wordsAux, hwc]
          have l2 : wordsAux cur (c :: p) = wordsAux (c :: cur) p := by
            simp [wordsAux, hwc]
          rw [l1, l2, hrec (c :: cur)]

/-- Words are preserved by paragraph splitting. -/
theorem splitOn2NL_words (cs : List Char) :
    ((splitOn2NL cs).map wordsLC).flatten = wordsLC cs := by
  rcases h : splitOn2NL cs with _ | ⟨p, ps⟩
  · exact absurd h (splitOn2NL_ne_nil cs)
  · have := splitOn2NL_words_aux cs [] p ps h
    simp [wordsLC, this]

/-! ## Sentence splitting: Python `re.split(r"(?<=[.!?])\s+", text)` -/

/-- The sentence-ending punctuation of `_split_into_sentences`. -/
def sentPunct (c : Char) : Bool := c = '.' || c = '!' || c = '?'

/-- Model of `re.split(r"(?<=[.!?])\s+", text)`: cut at every maximal
whitespace run immediately preceded by `.`, `!` or `?`; the matched
whitespace is dropped.  The boolean flag records whether the scan is inside
such a post-boundary whitespace run (regex `\s+` greediness). -/
def sentSplit : Bool → List Char → List (List Char)
  | _, [] => [[]]
  | skipping, c :: rest =>
    if skipping && isWS c then sentSplit true rest
    else
      match rest with
      | [] => [[c]]
      | d :: rest' =>
        if sentPunct c && isWS d then [c] :: sentSplit true rest'
        else
          match sentSplit false (d :: rest') with
          | [] => [[c]]
          | p :: ps => (c :: p) :: ps

theorem sentPunct_not_ws {c : Char} (h : sentPunct c = true) : isWS c = false := by
  unfold sentPunct at h
  rcases Bool.or_eq_true_iff.mp h with h' | h'
  · rcases Bool.or_eq_true_iff.mp h' with h'' | h'' <;>
      (simp only [decide_eq_true_eq] at h''; subst h''; decide)
  · simp only [decide_eq_true_eq] at h'; subst h'; decide

theorem sentSplit_nil (b : Bool) : sentSplit b [] = [[]] := by
  rw [sentSplit.eq_def]

theorem sentSplit_skip (c : Char) (rest : List Char) (hw : isWS c = true) :
    sentSplit true (c :: rest) = sentSplit true rest := by
  rw [sentSplit.eq_def]
  simp [hw]

theorem sentSplit_single (b : Bool) (c : Char) (hb : b = true → isWS c = false) :
    sentSplit b [c] = [[c]] := by
  rw [sentSplit.eq_def]
  cases b
  · simp
  · simp [hb rfl]

theorem sentSplit_boundary (b : Bool) (c d : Char) (rest' : List Char)
    (hb : b = true → isWS c = false) (hbd : (sentPunct c && isWS d) = true) :
    sentSplit b (c :: d :: rest') = [c] :: sentSplit true rest' := by
  rw [sentSplit.eq_def]
  cases b
  · simp [hbd]
  · simp [hb rfl, hbd]

theorem sentSplit_step (b : Bool) (c d : Char) (rest' : List Char)
    (hb : b = true → isWS c = false) (hbd : (sentPunct c && isWS d) = false) :
    sentSplit b (c :: d :: rest') =
      match sentSplit false (d :: rest') with
      | [] => [[c]]
      | p :: ps => (c :: p) :: ps := by
  rw [sentSplit.eq_def]
  cases b
  · simp [hbd]
  · simp [hb rfl, hbd]

theorem sentSplit_ne_nil : ∀ (b : Bool) (cs : List Char), sentSplit b cs ≠ []
  | b, [] => by rw [sentSplit_nil]; simp
  | true, c :: rest => by
    by_cases hwc : isWS c = true
    · rw [sentSplit_skip c rest hwc]
      exact sentSplit_ne_nil true rest
    · simp only [Bool.not_eq_true] at hwc
      rcases rest with _ | ⟨d, rest'⟩
      · rw [sentSplit_single true c (fun _ => hwc)]; simp
      · by_cases hbd : (sentPunct c && isWS d) = true
        · rw [sentSplit_boundary true c d rest' (fun _ => hwc) hbd]; simp
        · simp only [Bool.not_eq_true] at hbd
          rw [sentSplit_step true c d rest' (fun _ => hwc) hbd]
          rcases hq : sentSplit false (d :: rest') with _ | ⟨p, ps⟩
          · exact absurd hq (sentSplit_ne_nil false (d :: rest'))
          · simp
  | false, c :: rest => by
    rcases rest with _ | ⟨d, rest'⟩
    · rw [sentSplit_single false c (by simp)]; simp
    · by_cases hbd : (sentPunct c && isWS d) = true
      · rw [sentSplit_boundary false c d rest' (by simp) hbd]; simp
      · simp only [Bool.not_eq_true] at hbd
        rw [sentSplit_step false c d rest' (by simp) hbd]
        rcases hq : sentSplit false (d :: rest') with _ | ⟨p, ps⟩
        · exact absurd hq (sentSplit_ne_nil false (d :: rest'))
        · simp

theorem sentSplit_true_eq_false (c : Char) (rest : List Char)
    (hwc : isWS c = false) :
    sentSplit true (c :: rest) = sentSplit false (c :: rest) := by
  rw [sentSplit.eq_def]
  rw [sentSplit.eq_def]
  simp [hwc]

/-- Words are preserved by sentence splitting (accumulator form). -/
theorem sentSplit_words_aux :
    ∀ (b : Bool) (cs : List Char) (cur s : List Char) (ss : List (List Char)),
      (b = true → cur = []) →
      sentSplit b cs = s :: ss →
      wordsAux cur cs = wordsAux cur s ++ (ss.map wordsLC).flatten
  | b, [], cur, s, ss, _, h => by
    rw [sentSplit_nil] at h
    simp only [List.cons.injEq] at h
    obtain ⟨hs, hss⟩ := h
    subst hs; subst hss
    simp
  | true, c :: rest, cur, s, ss, hb, h => by
    have hcur := hb rfl
    subst hcur
    by_cases hwc : isWS c = true
    · rw [sentSplit_skip c rest hwc] at h
      have hrec := sentSplit_words_aux true rest [] s ss (fun _ => rfl) h
      have l1 : wordsAux ([] : List Char) (c :: rest) = wordsAux [] rest := by
        simp [wordsAux, hwc]
      rw [l1, hrec]
    · simp only [Bool.not_eq_true] at hwc
      rw [sentSplit_true_eq_false c rest hwc] at h
      exact sentSplit_words_aux false (c :: rest) [] s ss (by simp) h
  | false, [c], cur, s, ss, _, h => by
    rw [sentSplit_single false c (by simp)] at h
    simp only [List.cons.injEq] at h
    obtain ⟨hs, hss⟩ := h
    subst hs; subst hss
    simp
  | false, c :: d :: rest', cur, s, ss, _, h => by
    by_cases hbd : (sentPunct c && isWS d) = true
    · rw [sentSplit_boundary false c d rest' (by simp) hbd] at h
      simp only [List.cons.injEq] at h
      obtain ⟨hs, hss⟩ := h
      subst hs
      rcases hq : sentSplit true rest' with _ | ⟨p, ps⟩
      · exact absurd hq (sentSplit_ne_nil true rest')
      · subst hss
        have hrec := sentSplit_words_aux true rest' [] p ps (fun _ => rfl) hq
        obtain ⟨hcp, hwd⟩ := Bool.and_eq_true_iff.mp hbd
        have hwc : isWS c = false := sentPunct_not_ws hcp
        have l1 : wordsAux cur (c :: d :: rest') =
            (c :: cur).reverse :: wordsAux [] rest' := by
          simp [wordsAux, hwc, hwd]
        have l2 : wordsAux cur [c] = [(c :: cur).reverse] := by
          simp [wordsAux, hwc]
        rw [l1, l2, hq, hrec]
        simp [wordsLC]
    · simp only [Bool.not_eq_true] at hbd
      rw [sentSplit_step false c d rest' (by simp) hbd] at h
      rcases hq : sentSplit false (d :: rest') with _ | ⟨p, ps⟩
      · exact absurd hq (sentSplit_ne_nil false (d :: rest'))
      · rw [hq] at h
        simp only [List.cons.injEq] at h
        obtain ⟨hs, hss⟩ := h
        subst hs; subst hss
        have hrec := fun cur' =>
          sentSplit_words_aux false (d :: rest') cur' p ps (by simp) hq
        by_cases hwc : isWS c = true
        · by_cases hcur : cur = []
          · subst hcur
            have l1 : wordsAux ([] : List Char) (c :: d :: rest') =
                wordsAux [] (d :: rest') := by simp [wordsAux, hwc]
            have l2 : wordsAux ([] : List Char) (c :: p) = wordsAux [] p := by
              simp [wordsAux, hwc]
            rw [l1, l2, hrec []]
          · have l1 : wordsAux cur (c :: d :: rest') =
                cur.reverse :: wordsAux [] (d :: rest') := by
              simp [wordsAux, hwc, hcur]
            have l2 : wordsAux cur (c :: p) = cur.reverse :: wordsAux [] p := by
              simp [wordsAux, hwc, hcur]
            rw [l1, l2, hrec []]
            simp
        · simp only [Bool.not_eq_true] at hwc
          have l1 : wordsAux cur (c :: d :: rest') =
              wordsAux (c :: cur) (d :: rest') := by simp [wordsAux, hwc]
          have l2 : wordsAux cur (c :: p) = wordsAux (c :: cur) p := by
            simp [wordsAux, hwc]
          rw [l1, l2, hrec (c :: cur)]
  termination_by b cs => (cs.length, cond b 1 0)

/-- Words are preserved by sentence splitting. -/
theorem sentSplit_words (cs : List Char) :
    ((sentSplit false cs).map wordsLC).flatten = wordsLC cs := by
  rcases h : sentSplit false cs with _ | ⟨p, ps⟩
  · exact absurd h (sentSplit_ne_nil false cs)
  · have := sentSplit_words_aux false cs [] p ps (by simp) h
    simp [wordsLC, this]

/-! ## String-level text pipeline of `TextProcessor` -/

/-- Python `"\n".join(lines)`. -/
def joinNL : List String → String
  | [] => ""
  | [a] => a
  | a :: b :: t => a ++ "\n" ++ joinNL (b :: t)

theorem wordsS_mk (cs : List Char) : wordsS (String.mk cs) = wordsLC cs := rfl

/-- Words of a `"\n"`-join are the words of the parts. -/
theorem words_joinNL : ∀ ls : List String,
    wordsS (joinNL ls) = (ls.map wordsS).flatten
  | [] => by simp [joinNL, wordsS, wordsLC, wordsAux]
  | [a] => by simp [joinNL]
  | a :: b :: t => by
    have hrec := words_joinNL (b :: t)
    have hdata : (a ++ "\n" ++ joinNL (b :: t)).data =
        a.data ++ ['\n'] ++ (joinNL (b :: t)).data := by
      simp [String.data_append]
    have hsep := words_append_sep a.data ['\n'] (joinNL (b :: t)).data
      (by decide) (by simp)
    calc wordsS (joinNL (a :: b :: t))
        = wordsLC (a.data ++ ['\n'] ++ (joinNL (b :: t)).data) := by
          simp only [joinNL, wordsS, hdata]
      _ = wordsLC a.data ++ wordsLC (joinNL (b :: t)).data := hsep
      _ = wordsS a ++ (List.map wordsS (b :: t)).flatten := by
          rw [show wordsLC (joinNL (b :: t)).data = wordsS (joinNL (b :: t)) from rfl,
            hrec]
          rfl
      _ = (List.map wordsS (a :: b :: t)).flatten := by simp

/-- Stripping each piece and dropping empty pieces preserves the words. -/
theorem flatten_words_strip_filter (l : List (List Char)) :
    (((l.map stripLC).filter (fun cs => !cs.isEmpty)).map wordsLC).flatten
      = (l.map wordsLC).flatten := by
  induction l with
  | nil => simp
  | cons cs l ih =>
    by_cases hc : stripLC cs = []
    · have hw : wordsLC cs = [] := by rw [← words_stripLC cs, hc]; rfl
      simp [hc, ih, hw]
    · have hne : (!(stripLC cs).isEmpty) = true := by
        simp [List.isEmpty_iff, hc]
      simp only [List.map_cons, List.filter_cons, hne, if_true, List.map_cons,
        List.flatten_cons, ih, words_stripLC]

/-- Python loop `for paragraph in text.split("\n\n"): paragraph = paragraph.strip();
if not paragraph: continue` — the list of stripped nonempty paragraphs. -/
def pyParagraphs (text : String) : List String :=
  (((splitOn2NL text.data).map stripLC).filter (fun cs => !cs.isEmpty)).map
    String.mk

/-- Model of `_split_into_sentences`: regex split, then
`[s.strip() for s in sentences if s.strip()]`. -/
def pySentences (p : String) : List String :=
  (((sentSplit false p.data).map stripLC).filter (fun cs => !cs.isEmpty)).map
    String.mk

theorem words_pyParagraphs (text : String) :
    ((pyParagraphs text).map wordsS).flatten = wordsS text := by
  unfold pyParagraphs
  rw [List.map_map]
  rw [show wordsS ∘ String.mk = wordsLC from rfl]
  rw [flatten_words_strip_filter, splitOn2NL_words]
  rfl

theorem words_pySentences (p : String) :
    ((pySentences p).map wordsS).flatten = wordsS p := by
  unfold pySentences
  rw [List.map_map]
  rw [show wordsS ∘ String.mk = wordsLC from rfl]
  rw [flatten_words_strip_filter, sentSplit_words]
  rfl

/-! ## The chunking buffer machine of `chunk_text` -/

/-- The running buffer `current_chunk` of `chunk_text`, a Python list of
strings.  The optional first element is the overlap text seeded from the
previously flushed chunk; the remaining elements are the accumulated units
(paragraphs or sentences). -/
structure Buf where
  seed : Option String
  rest : List String
  deriving DecidableEq, Repr

/-- The Python list `current_chunk` itself. -/
def Buf.lines (b : Buf) : List String := b.seed.toList ++ b.rest

/-- State of the chunking loop: flushed chunks, running buffer, and the
`current_tokens` counter. -/
structure ChunkState where
  chunks : List Buf
  cur : Buf
  curTok : ℕ
  deriving DecidableEq, Repr

/-- The backwards accumulation loop of `_get_overlap_text`: walk the
reversed lines, taking lines while the token budget `ov` is not exceeded
(`break` on the first line that would exceed it). -/
def overlapAux (est : String → ℕ) (ov : ℕ) :
    List String → ℕ → List String → List String
  | [], _, acc => acc
  | l :: rs, curT, acc =>
    if curT + est l > ov then acc
    else overlapAux est ov rs (curT + est l) (l :: acc)

/-- The lines selected by `_get_overlap_text` (in original order). -/
def getOverlapLines (est : String → ℕ) (ov : ℕ) (lines : List String) :
    List String :=
  overlapAux est ov lines.reverse 0 []

/-- Model of `_get_overlap_text(chunk_lines, overlap_tokens)`: the selected suffix,
joined with `"\n"` (an empty input yields `""`, as in the source). -/
def getOverlapText (est : String → ℕ) (ov : ℕ) (lines : List String) : String :=
  joinNL (getOverlapLines est ov lines)

/-- One iteration of the accumulation loop of `chunk_text` on a single unit
`u` (paragraph or sentence; the two Python branches repeat this identical
logic).  If adding `u` would exceed `max_tokens` and the buffer is nonempty,
the buffer is flushed, the overlap seed is computed (when `overlap > 0`),
and `u` starts the next buffer; otherwise `u` is appended. -/
def addUnit (est : String → ℕ) (maxTok ov : ℕ) (st : ChunkState) (u : String) :
    ChunkState :=
  if st.curTok + est u > maxTok ∧ st.cur.lines ≠ [] then
    if 0 < ov then
      if getOverlapText est ov st.cur.lines = "" then
        ⟨st.chunks ++ [st.cur], ⟨none, [u]⟩, est u⟩
      else
        ⟨st.chunks ++ [st.cur],
          ⟨some (getOverlapText est ov st.cur.lines), [u]⟩,
          est (getOverlapText est ov st.cur.lines) + est u⟩
    else ⟨st.chunks ++ [st.cur], ⟨none, [u]⟩, est u⟩
  else ⟨st.chunks, ⟨st.cur.seed, st.cur.rest ++ [u]⟩, st.curTok + est u⟩

/-- The units contributed by one paragraph: its sentences if the paragraph
alone exceeds `max_tokens`, else the paragraph itself. -/
def paraUnits (est : String → ℕ) (maxTok : ℕ) (p : String) : List String :=
  if est p > maxTok then pySentences p else [p]

/-- Body of the `for paragraph in paragraphs` loop. -/
def processPara (est : String → ℕ) (maxTok ov : ℕ) (st : ChunkState)
    (p : String) : ChunkState :=
  if est p > maxTok then (pySentences p).foldl (addUnit est maxTok ov) st
  else addUnit est maxTok ov st p

def initChunkState : ChunkState := ⟨[], ⟨none, []⟩, 0⟩

/-- Buffer-level `chunk_text`: empty text returns `[]`; otherwise the
paragraph loop runs and a final nonempty buffer is flushed. -/
def chunkFinish (st : ChunkState) : List Buf :=
  st.chunks ++ (if st.cur.lines ≠ [] then [st.cur] else [])

def chunkTextSt (est : String → ℕ) (maxTok ov : ℕ) (text : String) :
    List Buf :=
  if text = "" then []
  else
    chunkFinish
      ((pyParagraphs text).foldl (processPara est maxTok ov) initChunkState)

/-- Python `"\n".join(current_chunk)` — the chunk string appended to `chunks`. -/
def chunkJoin (b : Buf) : String := joinNL b.lines

/-- Model of `TextProcessor.chunk_text(text, max_tokens, overlap)`, returning the
chunk strings. -/
def chunk_text (est : String → ℕ) (maxTok ov : ℕ) (text : String) :
    List String :=
  (chunkTextSt est maxTok ov text).map chunkJoin

/-! ## Reconstruction bookkeeping (claim C3) -/

/-- All units accumulated so far, overlap seeds excluded. -/
def allRest (st : ChunkState) : List String :=
  (st.chunks.map Buf.rest).flatten ++ st.cur.rest

theorem Buf.rest_of_lines_nil {b : Buf} (h : b.lines = []) : b.rest = [] := by
  unfold Buf.lines at h
  exact (List.append_eq_nil.mp h).2

theorem addUnit_allRest (est : String → ℕ) (maxTok ov : ℕ) (st : ChunkState)
    (u : String) :
    allRest (addUnit est maxTok ov st u) = allRest st ++ [u] := by
  unfold addUnit
  by_cases h1 : st.curTok + est u > maxTok ∧ st.cur.lines ≠ []
  · by_cases h2 : 0 < ov
    · by_cases h3 : getOverlapText est ov st.cur.lines = ""
      · simp [h1, h2, h3, allRest, List.append_assoc]
      · simp [h1, h2, h3, allRest, List.append_assoc]
    · simp [h1, h2, allRest, List.append_assoc]
  · simp [h1, allRest, List.append_assoc]

theorem foldl_addUnit_allRest (est : String → ℕ) (maxTok ov : ℕ) :
    ∀ (us : List String) (st : ChunkState),
      allRest (us.foldl (addUnit est maxTok ov) st) = allRest st ++ us := by
  intro us
  induction us with
  | nil => intro st; simp
  | cons u us ih =>
    intro st
    simp [List.foldl_cons, ih, addUnit_allRest, List.append_assoc]

theorem processPara_allRest (est : String → ℕ) (maxTok ov : ℕ)
    (st : ChunkState) (p : String) :
    allRest (processPara est maxTok ov st p) =
      allRest st ++ paraUnits est maxTok p := by
  unfold processPara paraUnits
  split_ifs with h
  · exact foldl_addUnit_allRest est maxTok ov (pySentences p) st
  · simp [addUnit_allRest]

theorem foldl_processPara_allRest (est : String → ℕ) (maxTok ov : ℕ) :
    ∀ (ps : List String) (st : ChunkState),
      allRest (ps.foldl (processPara est maxTok ov) st) =
        allRest st ++ (ps.map (paraUnits est maxTok)).flatten := by
  intro ps
  induction ps with
  | nil => intro st; simp
  | cons p ps ih =>
    intro st
    simp [List.foldl_cons, ih, processPara_allRest, List.append_assoc]

theorem words_paraUnits (est : String → ℕ) (maxTok : ℕ) (p : String) :
    ((paraUnits est maxTok p).map wordsS).flatten = wordsS p := by
  unfold paraUnits
  split_ifs with h
  · exact words_pySentences p
  · simp

theorem flatten_map_flatten {α β : Type} (f : α → List β) (l : List (List α)) :
    ((l.flatten).map f).flatten = (l.map (fun x => (x.map f).flatten)).flatten := by
  induction l with
  | nil => simp
  | cons x l ih =>
    simp only [List.flatten_cons, List.map_append, List.flatten_append,
      List.map_cons, ih]

theorem wordsS_empty : wordsS "" = [] := rfl

theorem chunkFinish_allRest (st : ChunkState) :
    ((chunkFinish st).map Buf.rest).flatten = allRest st := by
  unfold chunkFinish
  by_cases hcur : st.cur.lines = []
  · have := Buf.rest_of_lines_nil hcur
    simp [hcur, allRest, this]
  · simp [hcur, allRest]

/-- C3: for every input text (and any token estimator, token bound and
overlap setting), the chunks returned by `chunk_text`, taken in order with
each chunk's leading overlap seed removed and joined, reconstruct the input
text up to whitespace normalization: the word sequences coincide. -/
theorem C3_chunks_reconstruct_text (est : String → ℕ) (maxTok ov : ℕ)
    (text : String) :
    wordsS (joinNL (((chunkTextSt est maxTok ov text).map Buf.rest).flatten)) =
      wordsS text := by
  rw [words_joinNL]
  unfold chunkTextSt
  by_cases ht : text = ""
  · subst ht
    simp [wordsS_empty]
  · simp only [ht, if_false]
    rw [chunkFinish_allRest]
    rw [foldl_processPara_allRest est maxTok ov (pyParagraphs text)
      initChunkState]
    rw [show allRest initChunkState = [] from rfl]
    rw [List.nil_append]
    rw [flatten_map_flatten wordsS ((pyParagraphs text).map
      (paraUnits est maxTok))]
    rw [List.map_map]
    rw [show ((fun x => (List.map wordsS x).flatten) ∘ paraUnits est maxTok) =
      (fun p => ((paraUnits est maxTok p).map wordsS).flatten) from rfl]
    rw [funext (words_paraUnits est maxTok)]
    exact words_pyParagraphs text

/-! ## Overlap properties (`_get_overlap_text`) -/

/-- Total estimated size of a list of lines, unit by unit. -/
def sumEst (est : String → ℕ) (ls : List String) : ℕ := (ls.map est).sum

theorem overlapAux_suffix (est : String → ℕ) (ov : ℕ) :
    ∀ (rs : List String) (curT : ℕ) (acc : List String),
      overlapAux est ov rs curT acc <:+ rs.reverse ++ acc := by
  intro rs
  induction rs with
  | nil => intro curT acc; simp [overlapAux]
  | cons l rs ih =>
    intro curT acc
    by_cases h : curT + est l > ov
    · simp only [overlapAux, h, if_true, reduceIte]
      rw [List.reverse_cons, List.append_assoc]
      exact (List.suffix_append _ _).trans (List.suffix_append _ _)
    · simp only [overlapAux, h, if_false, reduceIte]
      have := ih (curT + est l) (l :: acc)
      rwa [List.reverse_cons, List.append_assoc, List.singleton_append]

theorem getOverlapLines_suffix (est : String → ℕ) (ov : ℕ) (ls : List String) :
    getOverlapLines est ov ls <:+ ls := by
  have := overlapAux_suffix est ov ls.reverse 0 []
  rwa [List.reverse_reverse, List.append_nil] at this

theorem overlapAux_sum (est : String → ℕ) (ov : ℕ) :
    ∀ (rs : List String) (curT : ℕ) (acc : List String),
      curT = sumEst est acc → curT ≤ ov →
      sumEst est (overlapAux est ov rs curT acc) ≤ ov := by
  intro rs
  induction rs with
  | nil => intro curT acc h hle; simpa [overlapAux, ← h]
  | cons l rs ih =>
    intro curT acc h hle
    by_cases hgt : curT + est l > ov
    · simpa [overlapAux, hgt, ← h]
    · simp only [overlapAux, hgt, if_false, reduceIte]
      refine ih (curT + est l) (l :: acc) ?_ (by omega)
      simp [sumEst, h]
      ring

theorem getOverlapLines_sum (est : String → ℕ) (ov : ℕ) (ls : List String) :
    sumEst est (getOverlapLines est ov ls) ≤ ov :=
  overlapAux_sum est ov ls.reverse 0 [] (by simp [sumEst]) (Nat.zero_le ov)

/-! ## Chunk-size invariant (claim C2) -/

/-- An estimator that is additive across the `"\n"` joins used by
`chunk_text` (the word-count estimator is; `chunk_text` itself tracks sizes
unit by unit in exactly this additive fashion). -/
def estAdditive (est : String → ℕ) : Prop :=
  ∀ a b : String, est (a ++ "\n" ++ b) = est a + est b

theorem est_joinNL (est : String → ℕ) (hadd : estAdditive est) :
    ∀ ls : List String, ls ≠ [] → est (joinNL ls) = sumEst est ls
  | [], h => absurd rfl h
  | [a], _ => by simp [joinNL, sumEst]
  | a :: b :: t, _ => by
    have hrec := est_joinNL est hadd (b :: t) (by simp)
    simp [joinNL, hadd a (joinNL (b :: t)), hrec, sumEst]

/-- The loop invariant behind the (amended) chunk-size bound: the token
counter equals the unit-by-unit size of the buffer, and every buffer —
flushed or running — is within `max_tokens + overlap` unless it contains a
single unit that alone exceeds `max_tokens`. -/
def ChunkInv (est : String → ℕ) (maxTok ov : ℕ) (st : ChunkState) : Prop :=
  st.curTok = sumEst est st.cur.lines ∧
  (st.curTok ≤ maxTok + ov ∨ ∃ u ∈ st.cur.rest, est u > maxTok) ∧
  (∀ b ∈ st.chunks,
    b.lines ≠ [] ∧ (sumEst est b.lines ≤ maxTok + ov ∨ ∃ u ∈ b.rest, est u > maxTok))

theorem addUnit_eq_flush_seed (est : String → ℕ) (maxTok ov : ℕ)
    (st : ChunkState) (u : String)
    (h : st.curTok + est u > maxTok ∧ st.cur.lines ≠ []) (hov : 0 < ov)
    (hovt : getOverlapText est ov st.cur.lines ≠ "") :
    addUnit est maxTok ov st u =
      ⟨st.chunks ++ [st.cur],
        ⟨some (getOverlapText est ov st.cur.lines), [u]⟩,
        est (getOverlapText est ov st.cur.lines) + est u⟩ := by
  unfold addUnit
  rw [if_pos h, if_pos hov, if_neg hovt]

theorem addUnit_eq_flush_empty_seed (est : String → ℕ) (maxTok ov : ℕ)
    (st : ChunkState) (u : String)
    (h : st.curTok + est u > maxTok ∧ st.cur.lines ≠ []) (hov : 0 < ov)
    (hovt : getOverlapText est ov st.cur.lines = "") :
    addUnit est maxTok ov st u =
      ⟨st.chunks ++ [st.cur], ⟨none, [u]⟩, est u⟩ := by
  unfold addUnit
  rw [if_pos h, if_pos hov, if_pos hovt]

theorem addUnit_eq_flush_noov (est : String → ℕ) (maxTok ov : ℕ)
    (st : ChunkState) (u : String)
    (h : st.curTok + est u > maxTok ∧ st.cur.lines ≠ []) (hov : ¬0 < ov) :
    addUnit est maxTok ov st u =
      ⟨st.chunks ++ [st.cur], ⟨none, [u]⟩, est u⟩ := by
  unfold addUnit
  rw [if_pos h, if_neg hov]

theorem addUnit_eq_append (est : String → ℕ) (maxTok ov : ℕ)
    (st : ChunkState) (u : String)
    (h : ¬(st.curTok + est u > maxTok ∧ st.cur.lines ≠ [])) :
    addUnit est maxTok ov st u =
      ⟨st.chunks, ⟨st.cur.seed, st.cur.rest ++ [u]⟩, st.curTok + est u⟩ := by
  unfold addUnit
  rw [if_neg h]

theorem addUnit_inv (est : String → ℕ) (maxTok ov : ℕ) (st : ChunkState)
    (u : String) (hadd : estAdditive est)
    (hinv : ChunkInv est maxTok ov st) :
    ChunkInv est maxTok ov (addUnit est maxTok ov st u) := by
  obtain ⟨h1, h2, h3⟩ := hinv
  by_cases hc : st.curTok + est u > maxTok ∧ st.cur.lines ≠ []
  · have hchunks : ∀ b ∈ st.chunks ++ [st.cur],
        b.lines ≠ [] ∧ (sumEst est b.lines ≤ maxTok + ov ∨
          ∃ v ∈ b.rest, est v > maxTok) := by
      intro b hb
      rcases List.mem_append.mp hb with hb | hb
      · exact h3 b hb
      · rw [List.mem_singleton.mp hb]
        exact ⟨hc.2, by rw [← h1]; exact h2⟩
    by_cases hov : 0 < ov
    · by_cases hovt : getOverlapText est ov st.cur.lines = ""
      · rw [addUnit_eq_flush_empty_seed est maxTok ov st u hc hov hovt]
        refine ⟨by simp [Buf.lines, sumEst], ?_, hchunks⟩
        by_cases hu : est u ≤ maxTok + ov
        · exact Or.inl hu
        · exact Or.inr ⟨u, by simp, by omega⟩
      · rw [addUnit_eq_flush_seed est maxTok ov st u hc hov hovt]
        have hlines_ne : getOverlapLines est ov st.cur.lines ≠ [] := by
          intro hnil
          apply hovt
          unfold getOverlapText
          rw [hnil]
          rfl
        have hestovt : est (getOverlapText est ov st.cur.lines) ≤ ov := by
          unfold getOverlapText
          rw [est_joinNL est hadd _ hlines_ne]
          exact getOverlapLines_sum est ov st.cur.lines
        refine ⟨by simp [Buf.lines, sumEst], ?_, hchunks⟩
        by_cases hu : est u ≤ maxTok
        · exact Or.inl (by simp only; omega)
        · exact Or.inr ⟨u, by simp, by omega⟩
    · rw [addUnit_eq_flush_noov est maxTok ov st u hc hov]
      refine ⟨by simp [Buf.lines, sumEst], ?_, hchunks⟩
      by_cases hu : est u ≤ maxTok + ov
      · exact Or.inl hu
      · exact Or.inr ⟨u, by simp, by omega⟩
  · rw [addUnit_eq_append est maxTok ov st u hc]
    refine ⟨?_, ?_, h3⟩
    · have hsplit : Buf.lines ⟨st.cur.seed, st.cur.rest ++ [u]⟩ =
          st.cur.lines ++ [u] := by
        simp [Buf.lines]
      simp only [hsplit]
      simp only [sumEst] at h1
      simp only [sumEst, List.map_append, List.sum_append, List.map_cons,
        List.map_nil, List.sum_cons, List.sum_nil]
      omega
    · rcases Decidable.not_and_iff_or_not.mp hc with hle | hemp
      · push_neg at hle
        exact Or.inl (by simp only; omega)
      · push_neg at hemp
        have hz : st.curTok = 0 := by
          rw [h1, hemp]
          rfl
        by_cases hu : est u ≤ maxTok + ov
        · exact Or.inl (by simp only; omega)
        · refine Or.inr ⟨u, by simp, by omega⟩

theorem foldl_addUnit_inv (est : String → ℕ) (maxTok ov : ℕ)
    (hadd : estAdditive est) :
    ∀ (us : List String) (st : ChunkState), ChunkInv est maxTok ov st →
      ChunkInv est maxTok ov (us.foldl (addUnit est maxTok ov) st) := by
  intro us
  induction us with
  | nil => intro st h; exact h
  | cons u us ih =>
    intro st h
    exact ih (addUnit est maxTok ov st u) (addUnit_inv est maxTok ov st u hadd h)

theorem processPara_inv (est : String → ℕ) (maxTok ov : ℕ)
    (hadd : estAdditive est) (st : ChunkState) (p : String)
    (h : ChunkInv est maxTok ov st) :
    ChunkInv est maxTok ov (processPara est maxTok ov st p) := by
  unfold processPara
  split_ifs with hp
  · exact foldl_addUnit_inv est maxTok ov hadd (pySentences p) st h
  · exact addUnit_inv est maxTok ov st p hadd h

theorem foldl_processPara_inv (est : String → ℕ) (maxTok ov : ℕ)
    (hadd : estAdditive est) :
    ∀ (ps : List String) (st : ChunkState), ChunkInv est maxTok ov st →
      ChunkInv est maxTok ov (ps.foldl (processPara est maxTok ov) st) := by
  intro ps
  induction ps with
  | nil => intro st h; exact h
  | cons p ps ih =>
    intro st h
    exact ih _ (processPara_inv est maxTok ov hadd st p h)

theorem initChunkState_inv (est : String → ℕ) (maxTok ov : ℕ) :
    ChunkInv est maxTok ov initChunkState := by
  refine ⟨rfl, Or.inl (Nat.zero_le _), ?_⟩
  intro b hb
  simp [initChunkState] at hb

/-- C2 (amended): for every text, every `max_tokens` and every overlap
setting, with any `"\n"`-join-additive estimator, every chunk produced by
`chunk_text` is a nonempty buffer whose estimated size is at most
`max_tokens + overlap`, except chunks containing a single accumulated unit
(an unsplittable sentence or paragraph) whose own estimate already exceeds
`max_tokens`. -/
theorem C2_amended_chunk_size (est : String → ℕ) (maxTok ov : ℕ)
    (text : String) (hadd : estAdditive est) :
    ∀ b ∈ chunkTextSt est maxTok ov text,
      b.lines ≠ [] ∧
        (est (chunkJoin b) ≤ maxTok + ov ∨ ∃ u ∈ b.rest, est u > maxTok) := by
  intro b hb
  unfold chunkTextSt at hb
  by_cases ht : text = ""
  · rw [if_pos ht] at hb
    simp at hb
  · rw [if_neg ht] at hb
    have hinv := foldl_processPara_inv est maxTok ov hadd (pyParagraphs text)
      initChunkState (initChunkState_inv est maxTok ov)
    obtain ⟨h1, h2, h3⟩ := hinv
    unfold chunkFinish at hb
    rcases List.mem_append.mp hb with hmem | hmem
    · obtain ⟨hne, hbound⟩ := h3 b hmem
      refine ⟨hne, ?_⟩
      rcases hbound with hle | hex
      · exact Or.inl (by rw [chunkJoin, est_joinNL est hadd _ hne]; exact hle)
      · exact Or.inr hex
    · by_cases hcur :
        ((pyParagraphs text).foldl (processPara est maxTok ov)
          initChunkState).cur.lines ≠ []
      · rw [if_pos hcur] at hmem
        rw [List.mem_singleton.mp hmem]
        refine ⟨hcur, ?_⟩
        rcases h2 with hle | hex
        · refine Or.inl ?_
          rw [chunkJoin, est_joinNL est hadd _ hcur, ← h1]
          exact hle
        · exact Or.inr hex
      · rw [if_neg hcur] at hmem
        simp at hmem

/-- Input used to refute claim C2 as stated: three six-word paragraphs. -/
def cexChunkText : String := "a b c d e f\n\ng h i j k l\n\nm n o p q r"

/-- C2 counterexample: with the spec-sanctioned word-count estimator,
`max_tokens = 10` and the source's default `overlap = 50`, no unit of the
input exceeds 10 tokens (so no "oversized atomic chunk" exception applies),
yet `chunk_text` returns a chunk estimating to 12 > 10: the overlap seed
plus the next unit is never re-checked against `max_tokens`. -/
theorem C2_counterexample :
    (∀ p ∈ pyParagraphs cexChunkText,
      ∀ u ∈ paraUnits countWords 10 p, countWords u ≤ 10) ∧
    chunk_text countWords 10 50 cexChunkText =
      ["a b c d e f", "a b c d e f\ng h i j k l",
        "a b c d e f\ng h i j k l\nm n o p q r"] ∧
    countWords "a b c d e f\ng h i j k l" = 12 := by
  refine ⟨by decide, by decide, by decide⟩

theorem countWords_additive : estAdditive countWords := by
  intro a b
  have hdata : (a ++ "\n" ++ b).data = a.data ++ ['\n'] ++ b.data := by
    simp [String.data_append]
  unfold countWords wordsS
  rw [hdata, words_append_sep a.data ['\n'] b.data (by decide) (by simp),
    List.length_append]

theorem C2_amended_witness :
    Buf.lines ⟨some "a b c d e f", ["g h i j k l"]⟩ ≠ [] ∧
      (countWords (chunkJoin ⟨some "a b c d e f", ["g h i j k l"]⟩) ≤ 10 + 50 ∨
        ∃ u ∈ [("g h i j k l" : String)], countWords u > 10) :=
  C2_amended_chunk_size countWords 10 50 cexChunkText countWords_additive
    ⟨some "a b c d e f", ["g h i j k l"]⟩ (by decide)

/-- C9: whenever `chunk_text` flushes the running buffer because adding the
next unit would exceed `max_tokens` (and `overlap > 0`), the flushed buffer
is appended to the chunk list, and the next buffer begins with a suffix of
the just-flushed buffer taken unit-by-unit from its end whose unit-by-unit
estimated size does not exceed `overlap`. -/
theorem C9_flush_overlap (est : String → ℕ) (maxTok ov : ℕ) (st : ChunkState)
    (u : String) (hflush : st.curTok + est u > maxTok)
    (hne : st.cur.lines ≠ []) (hov : 0 < ov) :
    (addUnit est maxTok ov st u).chunks = st.chunks ++ [st.cur] ∧
    ∃ ls : List String, ls <:+ st.cur.lines ∧ sumEst est ls ≤ ov ∧
      ∃ t : String,
        chunkJoin (addUnit est maxTok ov st u).cur = joinNL ls ++ t := by
  by_cases hovt : getOverlapText est ov st.cur.lines = ""
  · rw [addUnit_eq_flush_empty_seed est maxTok ov st u ⟨hflush, hne⟩ hov hovt]
    refine ⟨rfl, [], List.nil_suffix, by simp [sumEst], u, ?_⟩
    simp [chunkJoin, Buf.lines, joinNL]
  · rw [addUnit_eq_flush_seed est maxTok ov st u ⟨hflush, hne⟩ hov hovt]
    refine ⟨rfl, getOverlapLines est ov st.cur.lines,
      getOverlapLines_suffix est ov st.cur.lines,
      getOverlapLines_sum est ov st.cur.lines, "\n" ++ u, ?_⟩
    simp [chunkJoin, Buf.lines, joinNL, getOverlapText, String.append_assoc]

theorem C9_witness :
    (addUnit countWords 3 3 ⟨[], ⟨none, ["a b"]⟩, 2⟩ "c d").chunks =
        [] ++ [⟨none, ["a b"]⟩] ∧
    ∃ ls : List String, ls <:+ Buf.lines ⟨none, ["a b"]⟩ ∧
      sumEst countWords ls ≤ 3 ∧
      ∃ t : String,
        chunkJoin (addUnit countWords 3 3 ⟨[], ⟨none, ["a b"]⟩, 2⟩ "c d").cur =
          joinNL ls ++ t :=
  C9_flush_overlap countWords 3 3 ⟨[], ⟨none, ["a b"]⟩, 2⟩ "c d" (by decide)
    (by decide) (by decide)

/-! ## Similarity ranking (`talent_matcher_agent.py`) -/

/-- Python `round(x, 2)` (bankers' rounding, half-to-even), on exact
rationals: Python floats are idealised as ℚ. -/
def pyRound2 (x : ℚ) : ℚ :=
  ((if x * 100 - ⌊x * 100⌋ < 1/2 then ⌊x * 100⌋
    else if 1/2 < x * 100 - ⌊x * 100⌋ then ⌊x * 100⌋ + 1
    else if ⌊x * 100⌋ % 2 = 0 then ⌊x * 100⌋ else ⌊x * 100⌋ + 1 : ℤ) : ℚ) / 100

/-- The mapping `similarity_score = max(0, (1 - distance) * 100)` followed by
`round(similarity_score, 2)`. -/
def similarityScore (d : ℚ) : ℚ := pyRound2 (max 0 ((1 - d) * 100))

/-- One entry of the ranked result list (`rank` is `i + 1`). -/
structure MatchItem where
  rank : ℕ
  score : ℚ
  deriving DecidableEq, Repr

/-- The `for i, (doc, metadata, distance) in enumerate(zip(...))` ranking
loop: rank `i + 1` and the distance-to-score conversion, in query order. -/
def processResults (ds : List ℚ) : List MatchItem :=
  ds.enum.map (fun p => ⟨p.1 + 1, similarityScore p.2⟩)

theorem pyRound2_bounds (x : ℚ) (h0 : 0 ≤ x) (h100 : x ≤ 100) :
    0 ≤ pyRound2 x ∧ pyRound2 x ≤ 100 := by
  have hy0 : (0 : ℚ) ≤ x * 100 := by positivity
  have hy100 : x * 100 ≤ 10000 := by nlinarith
  have hf0 : (0 : ℤ) ≤ ⌊x * 100⌋ := Int.floor_nonneg.mpr hy0
  have hf100 : ⌊x * 100⌋ ≤ 10000 := by
    have h := Int.floor_le_floor (α := ℚ) hy100
    simpa using h
  have hfle : (⌊x * 100⌋ : ℚ) ≤ x * 100 := Int.floor_le _
  have hstrict : ¬(x * 100 - ⌊x * 100⌋ < 1/2) → ⌊x * 100⌋ < 10000 := by
    intro hge
    push_neg at hge
    by_contra hnot
    push_neg at hnot
    have hfeq : ⌊x * 100⌋ = 10000 := le_antisymm hf100 hnot
    rw [hfeq] at hge
    push_cast at hge
    linarith
  have hdiv : ∀ n : ℤ, 0 ≤ n → n ≤ 10000 → 0 ≤ (n : ℚ) / 100 ∧ (n : ℚ) / 100 ≤ 100 := by
    intro n hn0 hn1
    constructor
    · positivity
    · rw [div_le_iff₀ (by norm_num : (0:ℚ) < 100)]
      have : (n : ℚ) ≤ 10000 := by exact_mod_cast hn1
      linarith
  unfold pyRound2
  split_ifs with h1 h2 h3
  · exact hdiv _ hf0 hf100
  · have hlt := hstrict h1
    exact hdiv _ (by omega) (by omega)
  · exact hdiv _ hf0 hf100
  · have hlt := hstrict h1
    exact hdiv _ (by omega) (by omega)

theorem pyRound2_zero : pyRound2 0 = 0 := by
  norm_num [pyRound2]

theorem pyRound2_hundred : pyRound2 100 = 100 := by
  have hfl : ⌊(100 : ℚ) * 100⌋ = 10000 := by
    norm_num
  norm_num [pyRound2, hfl]

theorem similarityScore_zero_dist : similarityScore 0 = 100 := by
  unfold similarityScore
  rw [show max (0:ℚ) ((1 - 0) * 100) = 100 by norm_num]
  exact pyRound2_hundred

theorem similarityScore_far (d : ℚ) (h : 1 ≤ d) : similarityScore d = 0 := by
  unfold similarityScore
  have hle : (1 - d) * 100 ≤ 0 := by nlinarith
  rw [max_eq_left hle]
  exact pyRound2_zero

theorem similarityScore_bounds (d : ℚ) (h : 0 ≤ d) :
    0 ≤ similarityScore d ∧ similarityScore d ≤ 100 := by
  unfold similarityScore
  refine pyRound2_bounds _ (le_max_left _ _) (max_le (by norm_num) (by nlinarith))

theorem snd_mem_of_mem_enum {α : Type} {p : ℕ × α} {l : List α}
    (h : p ∈ l.enum) : p.2 ∈ l := by
  obtain ⟨i, x⟩ := p
  obtain ⟨_, _, hx⟩ := List.mem_enumFrom h
  rw [hx]
  exact List.getElem_mem _

/-- C1: for every ranking query, the result list pairs positionally with
the distance list returned by the vector index: the i-th match has rank
`i + 1` and its similarity score equals `max(0, (1 - d_i) * 100)` rounded to
two decimals, where `d_i` is the i-th distance; with cosine distances
(nonnegative) every score lies in `[0, 100]`; distance 0 maps to `100.00`
and every distance `>= 1` maps to `0.00`. -/
theorem C1_similarity_score (ds : List ℚ) (hd : ∀ d ∈ ds, 0 ≤ d) :
    (processResults ds).length = ds.length ∧
    (∀ (i : ℕ) (hi : i < ds.length) (hi2 : i < (processResults ds).length),
      ((processResults ds).get ⟨i, hi2⟩).rank = i + 1 ∧
      ((processResults ds).get ⟨i, hi2⟩).score =
        pyRound2 (max 0 ((1 - ds.get ⟨i, hi⟩) * 100)) ∧
      0 ≤ ((processResults ds).get ⟨i, hi2⟩).score ∧
      ((processResults ds).get ⟨i, hi2⟩).score ≤ 100) ∧
    similarityScore 0 = 100 ∧
    (∀ d : ℚ, 1 ≤ d → similarityScore d = 0) := by
  have hlen : (processResults ds).length = ds.length := by
    simp [processResults]
  refine ⟨hlen, ?_, similarityScore_zero_dist, fun d h => similarityScore_far d h⟩
  intro i hi hi2
  have hget : (processResults ds).get ⟨i, hi2⟩ =
      ⟨i + 1, similarityScore (ds.get ⟨i, hi⟩)⟩ := by
    rw [List.get_eq_getElem]
    unfold processResults
    rw [List.getElem_map]
    rw [List.getElem_enum]
    rfl
  rw [hget]
  exact ⟨rfl, rfl, (similarityScore_bounds _ (hd _ (List.get_mem ds i hi))).1,
    (similarityScore_bounds _ (hd _ (List.get_mem ds i hi))).2⟩

theorem C1_witness :
    (processResults [0, 1/2, (3:ℚ)/2]).length =
        ([0, 1/2, (3:ℚ)/2] : List ℚ).length ∧
    (∀ (i : ℕ) (hi : i < ([0, 1/2, (3:ℚ)/2] : List ℚ).length)
      (hi2 : i < (processResults [0, 1/2, (3:ℚ)/2]).length),
      ((processResults [0, 1/2, (3:ℚ)/2]).get ⟨i, hi2⟩).rank = i + 1 ∧
      ((processResults [0, 1/2, (3:ℚ)/2]).get ⟨i, hi2⟩).score =
        pyRound2 (max 0 ((1 - ([0, 1/2, (3:ℚ)/2] : List ℚ).get ⟨i, hi⟩) * 100)) ∧
      0 ≤ ((processResults [0, 1/2, (3:ℚ)/2]).get ⟨i, hi2⟩).score ∧
      ((processResults [0, 1/2, (3:ℚ)/2]).get ⟨i, hi2⟩).score ≤ 100) ∧
    similarityScore 0 = 100 ∧
    (∀ d : ℚ, 1 ≤ d → similarityScore d = 0) :=
  C1_similarity_score [0, 1/2, 3/2] (by
    intro d hd
    simp only [List.mem_cons, List.not_mem_nil, or_false] at hd
    rcases hd with h | h | h <;> rw [h] <;> norm_num)

/-! ## Identifier resolution (`int(job_id)` fallback logic) -/

/-- Digit-or-single-underscore tail of a decimal literal (Python 3.6+ allows
single underscores between digits). -/
def validTail : List Char → Bool
  | [] => true
  | '_' :: c :: rest => c.isDigit && validTail rest
  | c :: rest => c.isDigit && validTail rest

/-- Nonempty decimal digit sequence with optional single underscores between
digits. -/
def validDigits : List Char → Bool
  | [] => false
  | c :: rest => c.isDigit && validTail rest

def digitsVal (cs : List Char) : ℕ :=
  cs.foldl (fun a c => a * 10 + (c.toNat - '0'.toNat)) 0

/-- Model of Python `int(s)` on ASCII decimal strings: optional surrounding
whitespace, optional single sign, then digits (with single underscores
between digits); anything else raises `ValueError`, modelled as `none`.
Non-ASCII digit forms are outside the model. -/
def pyParseInt (s : String) : Option ℤ :=
  match stripLC s.data with
  | '+' :: rest =>
    if validDigits rest then some (digitsVal (rest.filter (fun c => c != '_')))
    else none
  | '-' :: rest =>
    if validDigits rest then
      some (-(digitsVal (rest.filter (fun c => c != '_')) : ℤ))
    else none
  | cs =>
    if validDigits cs then some (digitsVal (cs.filter (fun c => c != '_')))
    else none

/-- The identifier resolution of `get_best_candidates_for_job` /
`get_best_jobs_for_candidate`: `int(id)` successes within `[0, size)` select
that positional index; parse failures and out-of-range values fall back to
positional index 0. -/
def resolveIndex (s : String) (size : ℕ) : ℕ :=
  match pyParseInt s with
  | some n => if 0 ≤ n ∧ n < (size : ℤ) then n.toNat else 0
  | none => 0

/-- Outcome of a ranking call: the source returns a JSON object that either
carries an `"error"` key or the ranked results (shown here with the resolved
query index). -/
inductive RankResult where
  | error (msg : String)
  | ok (queryIndex : ℕ) (top : List MatchItem)
  deriving DecidableEq, Repr

/-- Model of `get_best_candidates_for_job(job_id, top_k)`.  The external ChromaDB
index is abstracted: `jobs` is the document list of `job_collection.get()`,
and `query t` gives the distance list returned by
`candidate_collection.query(query_texts=[t], ...)`.  The source wraps the
whole body in `try/except`, returning an error object instead of raising;
the model is correspondingly total. -/
def getBestCandidatesForJob (query : String → List ℚ) (jobs : List String)
    (jobId : String) : RankResult :=
  if jobs = [] then .error "No jobs found in the system"
  else
    if query (jobs.getD (resolveIndex jobId jobs.length) "") = [] then
      .error "No candidates found for matching"
    else
      .ok (resolveIndex jobId jobs.length)
        (processResults (query (jobs.getD (resolveIndex jobId jobs.length) "")))

/-- Model of `get_best_jobs_for_candidate(candidate_id, top_k)`, symmetric to
`getBestCandidatesForJob`. -/
def getBestJobsForCandidate (query : String → List ℚ)
    (candidates : List String) (candidateId : String) : RankResult :=
  if candidates = [] then .error "No candidates found in the system"
  else
    if query (candidates.getD (resolveIndex candidateId candidates.length) "")
        = [] then
      .error "No jobs found for matching"
    else
      .ok (resolveIndex candidateId candidates.length)
        (processResults
          (query
            (candidates.getD (resolveIndex candidateId candidates.length) "")))

/-- C7: identifiers that parse as an integer within `[0, pool size)` select
that positional index as the query target, and identifiers that do not parse
as an integer fall back to positional index 0; the ranking call queries with
the document at the resolved index. -/
theorem C7_identifier_resolution (s : String) (size : ℕ) :
    (∀ n : ℤ, pyParseInt s = some n → 0 ≤ n → n < (size : ℤ) →
      resolveIndex s size = n.toNat) ∧
    (pyParseInt s = none → resolveIndex s size = 0) ∧
    (∀ (query : String → List ℚ) (jobs : List String), jobs ≠ [] →
      query (jobs.getD (resolveIndex s jobs.length) "") ≠ [] →
      getBestCandidatesForJob query jobs s =
        .ok (resolveIndex s jobs.length)
          (processResults (query (jobs.getD (resolveIndex s jobs.length) "")))) := by
  refine ⟨?_, ?_, ?_⟩
  · intro n hparse h0 hsize
    unfold resolveIndex
    rw [hparse]
    show (if 0 ≤ n ∧ n < (size : ℤ) then n.toNat else 0) = n.toNat
    rw [if_pos ⟨h0, hsize⟩]
  · intro hparse
    unfold resolveIndex
    rw [hparse]
  · intro query jobs hne hq
    unfold getBestCandidatesForJob
    rw [if_neg hne, if_neg hq]

theorem C7_witness :
    (∀ n : ℤ, pyParseInt "2" = some n → 0 ≤ n → n < ((5 : ℕ) : ℤ) →
      resolveIndex "2" 5 = n.toNat) ∧
    (pyParseInt "2" = none → resolveIndex "2" 5 = 0) ∧
    (∀ (query : String → List ℚ) (jobs : List String), jobs ≠ [] →
      query (jobs.getD (resolveIndex "2" jobs.length) "") ≠ [] →
      getBestCandidatesForJob query jobs "2" =
        .ok (resolveIndex "2" jobs.length)
          (processResults
            (query (jobs.getD (resolveIndex "2" jobs.length) "")))) ∧
    resolveIndex "2" 5 = 2 ∧ resolveIndex "zzz" 5 = 0 ∧ pyParseInt "zzz" = none :=
  ⟨(C7_identifier_resolution "2" 5).1,
    (C7_identifier_resolution "2" 5).2.1,
    (C7_identifier_resolution "2" 5).2.2,
    by decide, by decide, by decide⟩

theorem similarityScore_half : similarityScore (1/2) = 50 := by
  unfold similarityScore
  rw [show max (0:ℚ) ((1 - 1/2) * 100) = 50 by norm_num]
  unfold pyRound2
  norm_num

/-- C6 counterexample: with a nonempty pool and a query-target identifier
that cannot be resolved to a record ("zzz" is non-numeric and matches
nothing), the function does not return an `{"error": ...}` result as the
claim requires: it silently falls back to positional index 0 and returns a
normal ranking. -/
theorem C6_counterexample :
    getBestCandidatesForJob (fun _ => [1/2]) ["j0", "j1"] "zzz" =
      .ok 0 [⟨1, 50⟩] ∧
    ∀ msg, getBestCandidatesForJob (fun _ => [1/2]) ["j0", "j1"] "zzz" ≠
      .error msg := by
  have hmain : getBestCandidatesForJob (fun _ => [1/2]) ["j0", "j1"] "zzz" =
      .ok 0 [⟨1, 50⟩] := by
    have hres : resolveIndex "zzz" (["j0", "j1"] : List String).length = 0 := by
      decide
    unfold getBestCandidatesForJob
    rw [if_neg (by simp : ¬(["j0", "j1"] : List String) = [])]
    rw [if_neg (by simp : ¬(fun (_ : String) => [(1:ℚ)/2])
      ((["j0", "j1"] : List String).getD
        (resolveIndex "zzz" (["j0", "j1"] : List String).length) "") = [])]
    rw [hres]
    simp only [processResults, List.enum, List.enumFrom, List.map_cons,
      List.map_nil]
    rw [similarityScore_half]
  exact ⟨hmain, fun msg h => by rw [hmain] at h; exact RankResult.noConfusion h⟩

/-- C6 (amended): if the queried pool is empty — no jobs stored, or the
candidate query returns no documents — the function returns a structured
`{"error": reason}` result; but an identifier that cannot be resolved does
not produce an error: it falls back to positional index 0 and returns a
normal ranking.  The function is total (the source catches all exceptions
and returns an error object), so every call yields `ok` or `error`. -/
theorem C6_amended_error_results (query : String → List ℚ)
    (jobs : List String) (jobId : String) :
    (jobs = [] →
      getBestCandidatesForJob query jobs jobId =
        .error "No jobs found in the system") ∧
    (jobs ≠ [] →
      query (jobs.getD (resolveIndex jobId jobs.length) "") = [] →
      getBestCandidatesForJob query jobs jobId =
        .error "No candidates found for matching") ∧
    (jobs ≠ [] → pyParseInt jobId = none →
      query (jobs.getD 0 "") ≠ [] →
      getBestCandidatesForJob query jobs jobId =
        .ok 0 (processResults (query (jobs.getD 0 "")))) := by
  refine ⟨?_, ?_, ?_⟩
  · intro hempty
    unfold getBestCandidatesForJob
    rw [if_pos hempty]
  · intro hne hq
    unfold getBestCandidatesForJob
    rw [if_neg hne, if_pos hq]
  · intro hne hparse hq
    have hres : resolveIndex jobId jobs.length = 0 := by
      unfold resolveIndex
      rw [hparse]
    unfold getBestCandidatesForJob
    rw [if_neg hne]
    rw [hres]
    rw [if_neg hq]

theorem C6_amended_witness :
    getBestCandidatesForJob (fun _ => ([] : List ℚ)) [] "0" =
      .error "No jobs found in the system" ∧
    getBestCandidatesForJob (fun _ => ([] : List ℚ)) ["j"] "0" =
      .error "No candidates found for matching" ∧
    getBestCandidatesForJob (fun _ => [(1:ℚ)/2]) ["j"] "zzz" =
      .ok 0 (processResults [(1:ℚ)/2]) :=
  ⟨(C6_amended_error_results (fun _ => ([] : List ℚ)) [] "0").1 rfl,
   (C6_amended_error_results (fun _ => ([] : List ℚ)) ["j"] "0").2.1
     (by simp) rfl,
   (C6_amended_error_results (fun _ => [(1:ℚ)/2]) ["j"] "zzz").2.2
     (by simp) (by decide) (by simp)⟩

/-! ## Duplicate detection (`mongo_util.py`) -/

inductive InsertDecision where
  | inserted
  | skipped
  deriving DecidableEq, Repr

/-- A stored job document: `_id` (the SHA-256 hash of
`f"{job_title}_{company_name}"`), the natural-key fields, and the remaining
payload abstracted as `body`. -/
structure JobDoc where
  docId : String
  title : String
  company : String
  body : String
  deriving DecidableEq, Repr

/-- Model of `insert_job_to_mongo_dict(data_dict)`: compute
`_id = sha256(f"{job_title}_{company_name}")` (the hash function is the
external `hashlib.sha256`, abstracted as `h`), `find_one({"_id": _id})`,
print-and-return (skip) when found, else `insert_one`. -/
def insertJobToMongo (h : String → String) (coll : List JobDoc)
    (title company body : String) : InsertDecision × List JobDoc :=
  if coll.any (fun d => d.docId == h (title ++ "_" ++ company)) then
    (.skipped, coll)
  else
    (.inserted, coll ++ [⟨h (title ++ "_" ++ company), title, company, body⟩])

/-- C4 counterexample: when a job with the same title+company hash already
exists, `insert_job_to_mongo_dict` does not replace the prior version as the
claim states — it skips the new record and leaves the prior version in the
store. -/
theorem C4_counterexample :
    insertJobToMongo (fun s => s) [⟨"T_C", "T", "C", "v1"⟩] "T" "C" "v2" =
      (.skipped, [⟨"T_C", "T", "C", "v1"⟩]) ∧
    (⟨"T_C", "T", "C", "v2"⟩ : JobDoc) ∉
      (insertJobToMongo (fun s => s) [⟨"T_C", "T", "C", "v1"⟩] "T" "C" "v2").2 := by
  refine ⟨by decide, by decide⟩

/-- C4 (amended): job insertion applies skip semantics keyed only by the
hash of job title and company name: when a record with that `_id` already
exists, the new record is skipped and the store left unchanged (the prior
version is not replaced); otherwise the record is inserted under that hash.
(The legacy `src/util/mongo_util.py` used `replace_one(..., upsert=True)`;
the active `src/database/mongo/mongo_util.py` checks and skips.) -/
theorem C4_amended_job_insert_skips (h : String → String) (coll : List JobDoc)
    (title company body : String) :
    ((∃ d ∈ coll, d.docId = h (title ++ "_" ++ company)) →
      insertJobToMongo h coll title company body = (.skipped, coll)) ∧
    ((¬∃ d ∈ coll, d.docId = h (title ++ "_" ++ company)) →
      insertJobToMongo h coll title company body =
        (.inserted,
          coll ++ [⟨h (title ++ "_" ++ company), title, company, body⟩])) := by
  have hcond : (coll.any (fun d => d.docId == h (title ++ "_" ++ company))) = true ↔
      ∃ d ∈ coll, d.docId = h (title ++ "_" ++ company) := by
    rw [List.any_eq_true]
    simp only [beq_iff_eq]
  constructor
  · intro hex
    unfold insertJobToMongo
    rw [if_pos (hcond.mpr hex)]
  · intro hex
    unfold insertJobToMongo
    rw [if_neg (fun hc => hex (hcond.mp hc))]

theorem C4_amended_witness :
    insertJobToMongo (fun s => s) [⟨"T_C", "T", "C", "v1"⟩] "T" "C" "v2" =
      (.skipped, [⟨"T_C", "T", "C", "v1"⟩]) ∧
    insertJobToMongo (fun s => s) [] "T" "C" "v1" =
      (.inserted, [⟨"T_C", "T", "C", "v1"⟩]) :=
  ⟨(C4_amended_job_insert_skips (fun s => s) [⟨"T_C", "T", "C", "v1"⟩]
      "T" "C" "v2").1 ⟨⟨"T_C", "T", "C", "v1"⟩, by simp, by simp⟩,
   (C4_amended_job_insert_skips (fun s => s) [] "T" "C" "v1").2 (by simp)⟩

/-- A stored candidate document: `_id` (the SHA-256 hash of the phone
number), the exact candidate name, and the phone. -/
structure CandDoc where
  docId : String
  name : String
  phone : String
  deriving DecidableEq, Repr

/-- The duplicate check of `insert_candidate_to_mongo_dict` (and
`safe_insert_candidate`): `_id = sha256(phone)` (external `hashlib.sha256`
abstracted as `h`), `find_one({"candidate_name": name})` AND
`find_one({"_id": _id})`; skip when either exists, else `insert_one`. -/
def insertCandidateToMongo (h : String → String) (coll : List CandDoc)
    (name phone : String) : InsertDecision × List CandDoc :=
  if coll.any (fun d => d.name == name) ||
      coll.any (fun d => d.docId == h phone) then
    (.skipped, coll)
  else
    (.inserted, coll ++ [⟨h phone, name, phone⟩])

/-- C5: under the strict skip policy, candidate insertion skips exactly when
an existing record matches either the hash of the phone number (the `_id`)
or the exact candidate name, and inserts otherwise; in particular, two
successive insertions of a candidate with the same phone number result in an
insert followed by a skip. -/
theorem C5_candidate_skip (h : String → String) (coll : List CandDoc)
    (name phone : String) :
    ((insertCandidateToMongo h coll name phone).1 = .skipped ↔
      ∃ d ∈ coll, d.name = name ∨ d.docId = h phone) ∧
    ((¬∃ d ∈ coll, d.name = name ∨ d.docId = h phone) →
      insertCandidateToMongo h coll name phone =
        (.inserted, coll ++ [⟨h phone, name, phone⟩])) ∧
    ((¬∃ d ∈ coll, d.name = name ∨ d.docId = h phone) →
      (insertCandidateToMongo h coll name phone).1 = .inserted ∧
      ∀ name2 : String,
        (insertCandidateToMongo h
          (insertCandidateToMongo h coll name phone).2 name2 phone).1 =
          .skipped) := by
  have hcond : (coll.any (fun d => d.name == name) ||
      coll.any (fun d => d.docId == h phone)) = true ↔
      ∃ d ∈ coll, d.name = name ∨ d.docId = h phone := by
    rw [Bool.or_eq_true, List.any_eq_true, List.any_eq_true]
    simp only [beq_iff_eq]
    constructor
    · rintro (⟨d, hd, he⟩ | ⟨d, hd, he⟩)
      · exact ⟨d, hd, Or.inl he⟩
      · exact ⟨d, hd, Or.inr he⟩
    · rintro ⟨d, hd, he | he⟩
      · exact Or.inl ⟨d, hd, he⟩
      · exact Or.inr ⟨d, hd, he⟩
  have hinsert : (¬∃ d ∈ coll, d.name = name ∨ d.docId = h phone) →
      insertCandidateToMongo h coll name phone =
        (.inserted, coll ++ [⟨h phone, name, phone⟩]) := by
    intro hex
    unfold insertCandidateToMongo
    rw [if_neg (fun hc => hex (hcond.mp hc))]
  refine ⟨?_, hinsert, ?_⟩
  · constructor
    · intro hskip
      by_contra hex
      rw [hinsert hex] at hskip
      exact InsertDecision.noConfusion hskip
    · intro hex
      unfold insertCandidateToMongo
      rw [if_pos (hcond.mpr hex)]
  · intro hex
    rw [hinsert hex]
    refine ⟨rfl, ?_⟩
    intro name2
    unfold insertCandidateToMongo
    have hany : ((coll ++ [(⟨h phone, name, phone⟩ : CandDoc)]).any
        (fun d => d.name == name2) ||
        (coll ++ [(⟨h phone, name, phone⟩ : CandDoc)]).any
          (fun d => d.docId == h phone)) = true := by
      rw [Bool.or_eq_true]
      refine Or.inr (List.any_eq_true.mpr
        ⟨(⟨h phone, name, phone⟩ : CandDoc), ?_, ?_⟩)
      · simp
      · simp
    rw [if_pos hany]

theorem C5_witness :
    ((insertCandidateToMongo (fun s => s) [] "Alice" "555-1234").1 =
        .skipped ↔
      ∃ d ∈ ([] : List CandDoc), d.name = "Alice" ∨ d.docId = "555-1234") ∧
    (insertCandidateToMongo (fun s => s) [] "Alice" "555-1234").1 =
      .inserted ∧
    (insertCandidateToMongo (fun s => s)
      (insertCandidateToMongo (fun s => s) [] "Alice" "555-1234").2
      "Alice" "555-1234").1 = .skipped := by
  have h := C5_candidate_skip (fun s => s) [] "Alice" "555-1234"
  have h3 := h.2.2 (by simp)
  exact ⟨h.1, h3.1, h3.2 "Alice"⟩

/-! ## Token usage tracking (`token_tracker.py`) -/

/-- A pricing tier: USD per 1K input / output tokens. -/
structure Price where
  inputRate : ℚ
  outputRate : ℚ
  deriving DecidableEq, Repr

/-- The static `TOKEN_PRICES` table. -/
def TOKEN_PRICES : List (String × Price) :=
  [("gpt-3.5-turbo", ⟨15/10000, 2/1000⟩),
   ("gpt-4", ⟨3/100, 6/100⟩),
   ("gpt-4-turbo", ⟨1/100, 3/100⟩)]

/-- Python `TOKEN_PRICES.get(key)`. -/
def pricesGet (k : String) : Option Price := TOKEN_PRICES.lookup k

/-- Boolean list-prefix test. -/
def pfxB : List Char → List Char → Bool
  | [], _ => true
  | _ :: _, [] => false
  | a :: as, b :: bs => a == b && pfxB as bs

/-- Boolean substring (infix) test. -/
def infB (needle : List Char) : List Char → Bool
  | [] => pfxB needle []
  | c :: rest => pfxB needle (c :: rest) || infB needle rest

/-- Python `needle in hay`. -/
def containsSub (hay needle : String) : Bool := infB needle.data hay.data

/-- Python `str.lower()` (ASCII case folding, as used on model names). -/
def lowerS (s : String) : String := String.mk (s.data.map Char.toLower)

/-- The pricing chosen by `_calculate_cost`: lowercase the model name, test
`"gpt-4-turbo" in key` before `"gpt-4" in key` before `"gpt-3.5-turbo" in
key`, and default to the gpt-3.5-turbo entry (with a logged warning) for
unknown models. -/
def selectedPricing (model : String) : Option Price :=
  if containsSub (lowerS model) "gpt-4-turbo" then pricesGet "gpt-4-turbo"
  else if containsSub (lowerS model) "gpt-4" then pricesGet "gpt-4"
  else if containsSub (lowerS model) "gpt-3.5-turbo" then
    pricesGet "gpt-3.5-turbo"
  else pricesGet "gpt-3.5-turbo"

/-- Model of `_calculate_cost(model_name, prompt_tokens, completion_tokens)`:
`(prompt/1000)*input + (completion/1000)*output`, or `0.0` in the
(unreachable) `if not pricing` branch. -/
def calcCost (model : String) (promptToks completionToks : ℕ) : ℚ :=
  match selectedPricing model with
  | none => 0
  | some pr =>
    (promptToks : ℚ) / 1000 * pr.inputRate +
      (completionToks : ℚ) / 1000 * pr.outputRate

/-- The rate tier described by the spec, written independently of
`_calculate_cost`'s `dict.get` plumbing: substring match on the normalized
name, `gpt-4-turbo` before `gpt-4`, defaulting to the gpt-3.5-turbo tier. -/
def rateFor (model : String) : Price :=
  if containsSub (lowerS model) "gpt-4-turbo" then ⟨1/100, 3/100⟩
  else if containsSub (lowerS model) "gpt-4" then ⟨3/100, 6/100⟩
  else if containsSub (lowerS model) "gpt-3.5-turbo" then ⟨15/10000, 2/1000⟩
  else ⟨15/10000, 2/1000⟩

/-- The `TokenUsageRecord` dataclass. -/
structure TokenUsageRecord where
  timestamp : ℚ
  operation_type : String
  model_name : String
  prompt_tokens : ℕ
  completion_tokens : ℕ
  total_tokens : ℕ
  estimated_cost : ℚ
  operation_id : Option String
  deriving DecidableEq, Repr

/-- One per-operation aggregate entry of `operation_totals`. -/
structure OpTotals where
  total_tokens : ℕ
  prompt_tokens : ℕ
  completion_tokens : ℕ
  estimated_cost : ℚ
  call_count : ℕ
  models_used : Finset String
  deriving DecidableEq

/-- The fresh aggregate installed when an operation type is first seen. -/
def zeroTotals : OpTotals := ⟨0, 0, 0, 0, 0, ∅⟩

/-- The in-place `totals[...] += ...` block of `record_usage`. -/
def addCall (model : String) (p c : ℕ) (cost : ℚ) (t : OpTotals) : OpTotals :=
  ⟨t.total_tokens + (p + c), t.prompt_tokens + p, t.completion_tokens + c,
    t.estimated_cost + cost, t.call_count + 1, insert model t.models_used⟩

/-- The `TokenTracker` mutable state: the append-only `usage_records` log and
the `operation_totals` dict (modelled as an association list in insertion
order). -/
structure TrackerState where
  usage_records : List TokenUsageRecord
  operation_totals : List (String × OpTotals)
  deriving DecidableEq

/-- Python dict update `operation_totals.setdefault(op, zero); ... += ...`. -/
def updateAssoc (l : List (String × OpTotals)) (key : String)
    (f : OpTotals → OpTotals) : List (String × OpTotals) :=
  match l with
  | [] => [(key, f zeroTotals)]
  | (k, v) :: rest =>
    if k = key then (k, f v) :: rest else (k, v) :: updateAssoc rest key f

/-- Python dict read `operation_totals.get(op)`. -/
def lookupAssoc (l : List (String × OpTotals)) (key : String) :
    Option OpTotals :=
  match l with
  | [] => none
  | (k, v) :: rest => if k = key then some v else lookupAssoc rest key

/-- Model of `TokenTracker.record_usage(...)`: compute `total = prompt + completion`
and the estimated cost, append a `TokenUsageRecord`, update the
per-operation aggregates incrementally, and return the cost.  (The
`threading.Lock` around this block serialises calls; the model is the
serialised behaviour.) -/
def recordUsage (st : TrackerState) (ts : ℚ) (op model : String) (p c : ℕ)
    (oid : Option String) : ℚ × TrackerState :=
  (calcCost model p c,
    ⟨st.usage_records ++ [⟨ts, op, model, p, c, p + c, calcCost model p c, oid⟩],
      updateAssoc st.operation_totals op
        (addCall model p c (calcCost model p c))⟩)

def initTracker : TrackerState := ⟨[], []⟩

/-- Arguments of one `record_usage` call. -/
structure UsageCall where
  timestamp : ℚ
  operation_type : String
  model_name : String
  prompt_tokens : ℕ
  completion_tokens : ℕ
  operation_id : Option String
  deriving DecidableEq, Repr

/-- State transition of one `record_usage` call. -/
def stepCall (st : TrackerState) (a : UsageCall) : TrackerState :=
  (recordUsage st a.timestamp a.operation_type a.model_name
    a.prompt_tokens a.completion_tokens a.operation_id).2

/-- A fresh tracker after a sequence of `record_usage` calls. -/
def runCalls (calls : List UsageCall) : TrackerState :=
  calls.foldl stepCall initTracker

/-- The per-operation aggregate recomputed from scratch from a record list
(`none` when the operation type never occurred, matching a missing dict
key). -/
def recomputeTotals (l : List TokenUsageRecord) : Option OpTotals :=
  match l with
  | [] => none
  | _ :: _ =>
    some ⟨(l.map (·.total_tokens)).sum, (l.map (·.prompt_tokens)).sum,
      (l.map (·.completion_tokens)).sum, (l.map (·.estimated_cost)).sum,
      l.length, (l.map (·.model_name)).toFinset⟩

/-- C8: for every `record_usage` call, the stored and returned estimated
cost equals `(prompt_tokens/1000)*input_rate +
(completion_tokens/1000)*output_rate`, where the rates come from the static
price table selected by case-insensitive substring match of the model name
(`gpt-4-turbo` tested before `gpt-4`); every model name matching no table
entry uses the default gpt-3.5-turbo tier rates, and no exception is raised
(the functions are total). -/
theorem C8_cost_formula (model : String) (p c : ℕ) (st : TrackerState)
    (ts : ℚ) (op : String) (oid : Option String) :
    calcCost model p c =
      (p : ℚ) / 1000 * (rateFor model).inputRate +
        (c : ℚ) / 1000 * (rateFor model).outputRate ∧
    (recordUsage st ts op model p c oid).1 = calcCost model p c ∧
    (recordUsage st ts op model p c oid).2.usage_records =
      st.usage_records ++
        [⟨ts, op, model, p, c, p + c, calcCost model p c, oid⟩] ∧
    (containsSub (lowerS model) "gpt-4-turbo" = false →
      containsSub (lowerS model) "gpt-4" = false →
      containsSub (lowerS model) "gpt-3.5-turbo" = false →
      rateFor model = ⟨15/10000, 2/1000⟩) := by
  have e1 : pricesGet "gpt-4-turbo" = some ⟨1/100, 3/100⟩ := rfl
  have e2 : pricesGet "gpt-4" = some ⟨3/100, 6/100⟩ := rfl
  have e3 : pricesGet "gpt-3.5-turbo" = some ⟨15/10000, 2/1000⟩ := rfl
  refine ⟨?_, rfl, rfl, ?_⟩
  · unfold calcCost selectedPricing rateFor
    split_ifs with h1 h2 h3
    · rw [e1]
    · rw [e2]
    · rw [e3]
    · rw [e3]
  · intro h1 h2 h3
    unfold rateFor
    rw [if_neg (by rw [h1]; exact Bool.false_ne_true),
      if_neg (by rw [h2]; exact Bool.false_ne_true),
      if_neg (by rw [h3]; exact Bool.false_ne_true)]

theorem C8_witness :
    calcCost "sonnet-large" 1000 2000 =
      (1000 : ℚ) / 1000 * (rateFor "sonnet-large").inputRate +
        (2000 : ℚ) / 1000 * (rateFor "sonnet-large").outputRate ∧
    (recordUsage initTracker 0 "resume_parsing" "sonnet-large" 1000 2000
      none).1 = calcCost "sonnet-large" 1000 2000 ∧
    rateFor "sonnet-large" = ⟨15/10000, 2/1000⟩ := by
  have h := C8_cost_formula "sonnet-large" 1000 2000 initTracker 0
    "resume_parsing" none
  exact ⟨h.1, h.2.1, h.2.2.2 (by decide) (by decide) (by decide)⟩

/-! ## Tracker aggregate invariant (claim C10) -/

theorem lookupAssoc_updateAssoc_same (l : List (String × OpTotals))
    (key : String) (f : OpTotals → OpTotals) :
    lookupAssoc (updateAssoc l key f) key =
      some (f ((lookupAssoc l key).getD zeroTotals)) := by
  induction l with
  | nil => simp [updateAssoc, lookupAssoc]
  | cons kv rest ih =>
    obtain ⟨k, v⟩ := kv
    by_cases hk : k = key
    · simp [updateAssoc, lookupAssoc, hk]
    · simp [updateAssoc, lookupAssoc, hk, ih]

theorem lookupAssoc_updateAssoc_other (l : List (String × OpTotals))
    (key key' : String) (f : OpTotals → OpTotals) (hne : key' ≠ key) :
    lookupAssoc (updateAssoc l key f) key' = lookupAssoc l key' := by
  have hne' : ¬key = key' := fun h => hne h.symm
  induction l with
  | nil => simp [updateAssoc, lookupAssoc, hne']
  | cons kv rest ih =>
    obtain ⟨k, v⟩ := kv
    by_cases hk : k = key
    · rw [show updateAssoc ((k, v) :: rest) key f = (k, f v) :: rest from by
        simp [updateAssoc, hk]]
      have hkne : ¬k = key' := by rw [hk]; exact hne'
      simp [lookupAssoc, hkne]
    · rw [show updateAssoc ((k, v) :: rest) key f =
        (k, v) :: updateAssoc rest key f from by simp [updateAssoc, hk]]
      by_cases hk' : k = key'
      · simp [lookupAssoc, hk']
      · simp [lookupAssoc, hk', ih]

theorem recomputeTotals_append (l : List TokenUsageRecord)
    (r : TokenUsageRecord)
    (ht : r.total_tokens = r.prompt_tokens + r.completion_tokens) :
    recomputeTotals (l ++ [r]) =
      some (addCall r.model_name r.prompt_tokens r.completion_tokens
        r.estimated_cost ((recomputeTotals l).getD zeroTotals)) := by
  cases l with
  | nil =>
    simp [recomputeTotals, addCall, zeroTotals, ht, Finset.insert_eq,
      Finset.union_comm]
  | cons x xs =>
    simp only [recomputeTotals, List.cons_append, Option.getD_some]
    refine congrArg some ?_
    unfold addCall
    rw [OpTotals.mk.injEq]
    refine ⟨?_, ?_, ?_, ?_, ?_, ?_⟩
    · simp [ht]
      omega
    · simp
      omega
    · simp
      omega
    · simp
      ring
    · simp
    · simp only [List.map_cons, List.map_append, List.map_nil]
      rw [List.toFinset_cons, List.toFinset_cons, List.toFinset_append]
      simp [Finset.insert_eq, Finset.union_comm, Finset.union_assoc,
        Finset.union_left_comm]

/-- The maintained-vs-recomputed agreement: every record's total is the sum
of its prompt and completion tokens, and each stored per-operation aggregate
equals the aggregate recomputed from the log restricted to that operation. -/
def TrackerInv (st : TrackerState) : Prop :=
  (∀ r ∈ st.usage_records,
    r.total_tokens = r.prompt_tokens + r.completion_tokens) ∧
  ∀ op : String,
    lookupAssoc st.operation_totals op =
      recomputeTotals
        (st.usage_records.filter (fun r => r.operation_type == op))

theorem recordUsage_inv (st : TrackerState) (ts : ℚ) (op model : String)
    (p c : ℕ) (oid : Option String) (h : TrackerInv st) :
    TrackerInv (recordUsage st ts op model p c oid).2 := by
  obtain ⟨h1, h2⟩ := h
  constructor
  · intro r hr
    unfold recordUsage at hr
    simp only at hr
    rcases List.mem_append.mp hr with hold | hnew
    · exact h1 r hold
    · rw [List.mem_singleton.mp hnew]
  · intro op'
    unfold recordUsage
    simp only
    rw [List.filter_append]
    by_cases hop : op' = op
    · subst hop
      rw [lookupAssoc_updateAssoc_same]
      rw [show List.filter (fun r => r.operation_type == op')
          [(⟨ts, op', model, p, c, p + c, calcCost model p c, oid⟩ :
            TokenUsageRecord)] =
          [⟨ts, op', model, p, c, p + c, calcCost model p c, oid⟩] from by
        simp]
      rw [recomputeTotals_append _ _ rfl]
      rw [h2 op']
    · rw [lookupAssoc_updateAssoc_other _ _ _ _ hop]
      rw [show List.filter (fun r => r.operation_type == op')
          [(⟨ts, op, model, p, c, p + c, calcCost model p c, oid⟩ :
            TokenUsageRecord)] = [] from by
        have hop' : ¬op = op' := fun hh => hop hh.symm
        simp [hop']]
      rw [List.append_nil]
      exact h2 op'

theorem foldl_stepCall_inv :
    ∀ (calls : List UsageCall) (st : TrackerState), TrackerInv st →
      TrackerInv (calls.foldl stepCall st) := by
  intro calls
  induction calls with
  | nil => intro st h; exact h
  | cons a calls ih =>
    intro st h
    exact ih (stepCall st a)
      (recordUsage_inv st a.timestamp a.operation_type a.model_name
        a.prompt_tokens a.completion_tokens a.operation_id h)

/-- C10: after every sequence of `record_usage` calls on a fresh
`TokenTracker`, every appended `TokenUsageRecord` satisfies
`total_tokens = prompt_tokens + completion_tokens`, and for every operation
type the incrementally maintained aggregates (call count, token sums, cost
sum and set of models used) equal the values recomputed from scratch over
the append-only `usage_records` log restricted to that operation type (with
a missing aggregate exactly when no such record exists). -/
theorem C10_tracker_aggregates (calls : List UsageCall) :
    (∀ r ∈ (runCalls calls).usage_records,
      r.total_tokens = r.prompt_tokens + r.completion_tokens) ∧
    ∀ op : String,
      lookupAssoc (runCalls calls).operation_totals op =
        recomputeTotals
          ((runCalls calls).usage_records.filter
            (fun r => r.operation_type == op)) := by
  have hinit : TrackerInv initTracker := by
    constructor
    · intro r hr
      simp [initTracker] at hr
    · intro op
      rfl
  exact foldl_stepCall_inv calls initTracker hinit

theorem C10_witness :
    lookupAssoc
      (runCalls
        [⟨0, "resume_parsing", "gpt-4", 100, 50, none⟩,
         ⟨1, "resume_parsing", "gpt-3.5-turbo", 10, 5, none⟩,
         ⟨2, "job_parsing", "gpt-4", 7, 3, none⟩]).operation_totals
      "resume_parsing" =
    recomputeTotals
      ((runCalls
        [⟨0, "resume_parsing", "gpt-4", 100, 50, none⟩,
         ⟨1, "resume_parsing", "gpt-3.5-turbo", 10, 5, none⟩,
         ⟨2, "job_parsing", "gpt-4", 7, 3, none⟩]).usage_records.filter
        (fun r => r.operation_type == "resume_parsing")) :=
  (C10_tracker_aggregates
    [⟨0, "resume_parsing", "gpt-4", 100, 50, none⟩,
     ⟨1, "resume_parsing", "gpt-3.5-turbo", 10, 5, none⟩,
     ⟨2, "job_parsing", "gpt-4", 7, 3, none⟩]).2 "resume_parsing"
